import Mathlib

/-!
Verification of the package-index ingestion and selection-resolution engine
of the ofs-next repository.

The development shallowly embeds the relevant source functions:

* `src/src/stores/package.ts` — the selection state machine
  (`buildPackagesList`, `togglePackage`, `addPackage`, `removePackage`,
  `addRemovedPackage`, `removeRemovedPackage`).
* `src/src/tools/adbdump.js` — the binary index reader
  (`versionOpString`, `dependencyToString`, `ADBReader.readInt`,
  `ADBReader.readBlob`, `maybeDecompress`, `inflate`).
* the package-manager service — text control-file parsing
  (`parsePackagesFile`, `parsePackageBlock`, `parseDependencies`),
  ADB dependency cleanup (`cleanAdbDependency`, `mapAdbPackages`) and
  the dependency graph query (`getDependencyTree`).

JavaScript `Set` values (insertion-ordered, duplicate-free) are embedded as
`List String`, with `jsSetAdd` (Set.add), `jsSetDelete` (Set.delete);
`Array.from` of a set is the identity on this representation.
Strings processed character-by-character by the parsers are embedded as
`List Char`; byte buffers as `List Nat`.
-/

/-- Selection state of the package store: `selectedPackages` (explicitly
added names) and `removedPackages` (default names marked for removal),
both JavaScript `Set`s in the source. -/
structure SelState where
  selected : List String
  removed : List String
deriving DecidableEq

/-- JavaScript `Set.add`: append if not already present (insertion order). -/
def jsSetAdd (l : List String) (x : String) : List String :=
  if x ∈ l then l else l ++ [x]

/-- JavaScript `Set.delete`: remove the element. -/
def jsSetDelete (l : List String) (x : String) : List String :=
  l.filter (fun m => m ≠ x)

/-- `buildPackagesList` from `src/src/stores/package.ts` (lines 56-82):
defaults not marked removed, then selected names that are not defaults,
then removed names that are defaults with a `-` prefix. -/
def buildPackagesList (defaults added removed : List String) : List String :=
  defaults.filter (fun p => p ∉ removed) ++
    added.filter (fun p => p ∉ defaults) ++
    (removed.filter (fun p => p ∈ defaults)).map (fun p => "-" ++ p)

/-- `addPackage` from `src/src/stores/package.ts` (lines 136-138):
unconditionally adds the name to the selected set (no default-set guard). -/
def addPackage (s : SelState) (n : String) : SelState :=
  ⟨jsSetAdd s.selected n, s.removed⟩

/-- `removePackage`: deletes the name from the selected set. -/
def removePackage (s : SelState) (n : String) : SelState :=
  ⟨jsSetDelete s.selected n, s.removed⟩

/-- `addRemovedPackage` (lines 185-192): only if the name is a default is it
added to the removed set; it is also deleted from the selected set. -/
def addRemovedPackage (defaults : List String) (s : SelState) (n : String) : SelState :=
  if n ∈ defaults then ⟨jsSetDelete s.selected n, jsSetAdd s.removed n⟩ else s

/-- `removeRemovedPackage`: deletes the name from the removed set. -/
def removeRemovedPackage (s : SelState) (n : String) : SelState :=
  ⟨s.selected, jsSetDelete s.removed n⟩

/-- `togglePackage` (lines 144-162): a default name toggles its removed-set
membership; a non-default name toggles its selected-set membership. -/
def togglePackage (defaults : List String) (s : SelState) (n : String) : SelState :=
  if n ∈ defaults then
    if n ∈ s.removed then removeRemovedPackage s n else addRemovedPackage defaults s n
  else
    if n ∈ s.selected then removePackage s n else addPackage s n

/-- State reached from the empty selection state by a sequence of toggles. -/
def toggleRun (defaults : List String) (ns : List String) : SelState :=
  ns.foldl (togglePackage defaults) ⟨[], []⟩

theorem mem_jsSetAdd {l : List String} {x m : String} :
    m ∈ jsSetAdd l x ↔ m ∈ l ∨ m = x := by
  unfold jsSetAdd
  split
  · constructor
    · exact fun h => Or.inl h
    · rintro (h | rfl)
      · exact h
      · assumption
  · simp [List.mem_append]

theorem mem_jsSetDelete {l : List String} {x m : String} :
    m ∈ jsSetDelete l x ↔ m ∈ l ∧ m ≠ x := by
  unfold jsSetDelete
  simp

theorem jsSetDelete_of_not_mem {l : List String} {x : String} (h : x ∉ l) :
    jsSetDelete l x = l := by
  unfold jsSetDelete
  apply List.filter_eq_self.mpr
  intro a ha
  simp only [ne_eq, decide_eq_true_eq]
  rintro rfl
  exact h ha

/-- C1: with the selection invariants in force (removed ⊆ defaults, added
disjoint from defaults), the derived build list is exactly the defaults
minus the removed names, followed by the added names, followed by one
`-`-prefixed entry per removed name, and by nothing else. -/
theorem buildPackagesList_spec (defaults added removed : List String)
    (hrem : ∀ p ∈ removed, p ∈ defaults) (hadd : ∀ p ∈ added, p ∉ defaults) :
    buildPackagesList defaults added removed =
      defaults.filter (fun p => p ∉ removed) ++ added ++
        removed.map (fun p => "-" ++ p) := by
  unfold buildPackagesList
  have h1 : added.filter (fun p => p ∉ defaults) = added := by
    apply List.filter_eq_self.mpr
    intro a ha
    simpa using hadd a ha
  have h2 : removed.filter (fun p => p ∈ defaults) = removed := by
    apply List.filter_eq_self.mpr
    intro a ha
    simpa using hrem a ha
  rw [h1, h2]

theorem buildPackagesList_spec_witness :
    buildPackagesList ["a", "b"] ["c"] ["a"] =
      (["a", "b"] : List String).filter (fun p => p ∉ (["a"] : List String)) ++
        ["c"] ++ (["a"] : List String).map (fun p => "-" ++ p) :=
  buildPackagesList_spec ["a", "b"] ["c"] ["a"] (by decide) (by decide)

/-- Invariant of the selection state relative to a default set: a default
name is never in the selected set; a removed name is always a default. -/
def SelInv (defaults : List String) (s : SelState) : Prop :=
  (∀ m ∈ defaults, m ∉ s.selected) ∧ (∀ m ∈ s.removed, m ∈ defaults)

theorem selInv_empty (defaults : List String) : SelInv defaults ⟨[], []⟩ := by
  constructor <;> simp

theorem selInv_toggle (defaults : List String) (s : SelState) (n : String)
    (h : SelInv defaults s) : SelInv defaults (togglePackage defaults s n) := by
  obtain ⟨h1, h2⟩ := h
  unfold togglePackage removeRemovedPackage addRemovedPackage removePackage addPackage
  by_cases hd : n ∈ defaults
  · simp only [hd, if_true]
    by_cases hr : n ∈ s.removed
    · simp only [hr, if_true]
      refine ⟨h1, ?_⟩
      intro m hm
      exact h2 m (mem_jsSetDelete.mp hm).1
    · simp only [hr, if_false]
      refine ⟨?_, ?_⟩
      · intro m hm hmem
        exact h1 m hm (mem_jsSetDelete.mp hmem).1
      · intro m hm
        rcases mem_jsSetAdd.mp hm with h | rfl
        · exact h2 m h
        · exact hd
  · simp only [hd, if_false]
    by_cases hs : n ∈ s.selected
    · simp only [hs, if_true]
      refine ⟨?_, h2⟩
      intro m hm hmem
      exact h1 m hm (mem_jsSetDelete.mp hmem).1
    · simp only [hs, if_false]
      refine ⟨?_, h2⟩
      intro m hm hmem
      rcases mem_jsSetAdd.mp hmem with h | rfl
      · exact h1 m hm h
      · exact hd hm

theorem selInv_foldl (defaults : List String) (ns : List String) (s : SelState)
    (h : SelInv defaults s) : SelInv defaults (ns.foldl (togglePackage defaults) s) := by
  induction ns generalizing s with
  | nil => exact h
  | cons n ns ih => exact ih _ (selInv_toggle defaults s n h)

theorem selInv_toggleRun (defaults ns : List String) :
    SelInv defaults (toggleRun defaults ns) :=
  selInv_foldl defaults ns _ (selInv_empty defaults)

theorem togglePackage_mem (defaults : List String) (s : SelState) (n : String)
    (h : SelInv defaults s) :
    ((n ∈ defaults) →
      ((n ∈ (togglePackage defaults s n).removed ↔ n ∉ s.removed) ∧
       (togglePackage defaults s n).selected = s.selected ∧
       (∀ m, m ≠ n → (m ∈ (togglePackage defaults s n).removed ↔ m ∈ s.removed)) ∧
       n ∉ s.selected ∧ n ∉ (togglePackage defaults s n).selected)) ∧
    ((n ∉ defaults) →
      ((n ∈ (togglePackage defaults s n).selected ↔ n ∉ s.selected) ∧
       (togglePackage defaults s n).removed = s.removed ∧
       (∀ m, m ≠ n → (m ∈ (togglePackage defaults s n).selected ↔ m ∈ s.selected)) ∧
       n ∉ s.removed ∧ n ∉ (togglePackage defaults s n).removed)) := by
  obtain ⟨h1, h2⟩ := h
  constructor
  · intro hd
    have hnsel : n ∉ s.selected := h1 n hd
    unfold togglePackage removeRemovedPackage addRemovedPackage
    simp only [hd, if_true]
    by_cases hr : n ∈ s.removed
    · simp only [hr, if_true]
      refine ⟨?_, by trivial, ?_, hnsel, hnsel⟩
      · simp [mem_jsSetDelete, hr]
      · intro m hm
        simp [mem_jsSetDelete, hm]
    · simp only [hr, if_false]
      refine ⟨?_, jsSetDelete_of_not_mem hnsel, ?_, hnsel, ?_⟩
      · simp [mem_jsSetAdd, hr]
      · intro m hm
        simp [mem_jsSetAdd, hm]
      · rw [jsSetDelete_of_not_mem hnsel]
        exact hnsel
  · intro hd
    have hnrem : n ∉ s.removed := fun hmem => hd (h2 n hmem)
    unfold togglePackage removePackage addPackage
    simp only [hd, if_false]
    by_cases hs : n ∈ s.selected
    · simp only [hs, if_true]
      refine ⟨?_, by trivial, ?_, hnrem, hnrem⟩
      · simp [mem_jsSetDelete, hs]
      · intro m hm
        simp [mem_jsSetDelete, hm]
    · simp only [hs, if_false]
      refine ⟨?_, by trivial, ?_, hnrem, hnrem⟩
      · simp [mem_jsSetAdd, hs]
      · intro m hm
        simp [mem_jsSetAdd, hm]

/-- C2: at any state reachable from the empty selection state by a sequence
of toggles, toggling a default name flips only its removed-set membership
(it is never recorded as added), and toggling a non-default name flips only
its selected-set membership (it is never recorded as removed); other names
are untouched. -/
theorem togglePackage_spec (defaults ns : List String) (n : String) :
    ((n ∈ defaults) →
      ((n ∈ (togglePackage defaults (toggleRun defaults ns) n).removed ↔
          n ∉ (toggleRun defaults ns).removed) ∧
       (togglePackage defaults (toggleRun defaults ns) n).selected =
          (toggleRun defaults ns).selected ∧
       (∀ m, m ≠ n → (m ∈ (togglePackage defaults (toggleRun defaults ns) n).removed ↔
          m ∈ (toggleRun defaults ns).removed)) ∧
       n ∉ (toggleRun defaults ns).selected ∧
       n ∉ (togglePackage defaults (toggleRun defaults ns) n).selected)) ∧
    ((n ∉ defaults) →
      ((n ∈ (togglePackage defaults (toggleRun defaults ns) n).selected ↔
          n ∉ (toggleRun defaults ns).selected) ∧
       (togglePackage defaults (toggleRun defaults ns) n).removed =
          (toggleRun defaults ns).removed ∧
       (∀ m, m ≠ n → (m ∈ (togglePackage defaults (toggleRun defaults ns) n).selected ↔
          m ∈ (toggleRun defaults ns).selected)) ∧
       n ∉ (toggleRun defaults ns).removed ∧
       n ∉ (togglePackage defaults (toggleRun defaults ns) n).removed)) :=
  togglePackage_mem defaults (toggleRun defaults ns) n (selInv_toggleRun defaults ns)

theorem togglePackage_spec_witness :
    "a" ∉ (togglePackage ["a", "b"] (toggleRun ["a", "b"] []) "a").selected ∧
    "c" ∉ (togglePackage ["a", "b"] (toggleRun ["a", "b"] []) "c").removed :=
  ⟨((togglePackage_spec ["a", "b"] [] "a").1 (by decide)).2.2.2.2,
   ((togglePackage_spec ["a", "b"] [] "c").2 (by decide)).2.2.2.2⟩

/-- C3 counterexample: `addPackage` does not enforce Invariant B. Adding the
default name `a` with the direct add operation records it in the selected
(added) set instead of clamping to unset. -/
theorem addPackage_default_not_clamped :
    ("a" ∈ (["a", "b"] : List String)) ∧
    (addPackage ⟨[], []⟩ "a").selected = ["a"] := by
  constructor
  · decide
  · rfl

/-- C3 amended: `addRemovedPackage` does enforce Invariant A — recording a
non-default name as removed is rejected by leaving the state unchanged —
but the direct add operation has no guard and records even a default name
in the selected set; Invariant B is imposed only downstream, where the
derived build list ignores selected entries that are default names. -/
theorem selection_guard_spec (defaults : List String) (s : SelState) (n : String) :
    (n ∉ defaults → addRemovedPackage defaults s n = s) ∧
    ((addPackage s n).selected = jsSetAdd s.selected n ∧
     (addPackage s n).removed = s.removed) ∧
    (n ∈ defaults → buildPackagesList defaults (jsSetAdd s.selected n) s.removed =
      buildPackagesList defaults s.selected s.removed) := by
  refine ⟨?_, ⟨rfl, rfl⟩, ?_⟩
  · intro hd
    unfold addRemovedPackage
    simp [hd]
  · intro hd
    unfold buildPackagesList jsSetAdd
    split
    · rfl
    · rw [List.filter_append]
      have : ([n] : List String).filter (fun p => p ∉ defaults) = [] := by
        simp [hd]
      rw [this, List.append_nil]

theorem selection_guard_spec_witness :
    addRemovedPackage ["a"] ⟨["x"], []⟩ "b" = ⟨["x"], []⟩ ∧
    buildPackagesList ["a"] (jsSetAdd [] "a") [] = buildPackagesList ["a"] [] [] :=
  ⟨(selection_guard_spec ["a"] ⟨["x"], []⟩ "b").1 (by decide),
   (selection_guard_spec ["a"] ⟨[], []⟩ "a").2.2 (by decide)⟩

/-- Clearing the CONFLICT bit (16) from a match bitmask on its 32-bit
value (`op & ~OP.CONFLICT` on the `>>> 0` coercion). -/
def clearConflict (op : Nat) : Nat :=
  op % 4294967296 - op % 4294967296 / 16 % 2 * 16

/-- `versionOpString` from `src/src/tools/adbdump.js` (lines 219-235).
The comparator table over the apk match bits EQUAL=1, LESS=2, GREATER=4,
FUZZY=8; the CONFLICT bit is cleared first. Unlisted combinations hit the
`default` branch and render `?`. Strings are embedded as `List Char`. -/
def versionOpString (op : Nat) : List Char :=
  if clearConflict op = 2 then ['<']
  else if clearConflict op = 3 then ['<', '=']
  else if clearConflict op = 11 then ['<', '=', '~']
  else if clearConflict op = 9 then ['~']
  else if clearConflict op = 8 then ['~']
  else if clearConflict op = 1 then ['=']
  else if clearConflict op = 5 then ['>', '=']
  else if clearConflict op = 13 then ['>', '=', '~']
  else if clearConflict op = 4 then ['>']
  else if clearConflict op = 6 then ['>', '<']
  else if clearConflict op = 7 then []
  else ['?']

/-- One binary-format dependency object after tag dereferencing: the name
slot (absent when the name tag is 0), the optional version slot and the
optional match bitmask slot. -/
structure AdbDep where
  name : Option (List Char)
  ver : Option (List Char)
  matchMask : Option Nat
deriving DecidableEq

/-- Test of the CONFLICT bit (16) in a match bitmask (`op & OP.CONFLICT`). -/
def hasConflictBit (op : Nat) : Bool := op / 16 % 2 = 1

/-- `dependencyToString` from `adbdump.js` (lines 237-250), at the level of
already-dereferenced slots: no name renders the empty string; a missing or
zero mask defaults to EQUAL; without a version only the (possibly
`!`-prefixed) name is rendered; with a version the comparator and version
are appended. -/
def dependencyToString (d : AdbDep) : List Char :=
  match d.name with
  | none => []
  | some name =>
    let op0 := d.matchMask.getD 0
    let op := if op0 = 0 then 1 else op0
    match d.ver with
    | none => if hasConflictBit op then '!' :: name else name
    | some ver =>
      (if hasConflictBit op then ['!'] else []) ++ name ++ versionOpString op ++ ver

/-- C4 counterexample: the match bitmask 10 (LESS+FUZZY) renders the
fallback comparator `?`, which is not one of the ten comparator strings of
the spec's table. -/
theorem versionOpString_fallback :
    versionOpString 10 = ['?'] ∧
    (['?'] : List Char) ∉ [['<'], ['<', '='], ['<', '=', '~'], ['~'], ['='],
      ['>', '='], ['>', '=', '~'], ['>'], ['>', '<'], ([] : List Char)] := by
  constructor
  · rfl
  · decide

set_option maxHeartbeats 1000000 in
theorem versionOpString_mem (op : Nat) :
    versionOpString op ∈ [['<'], ['<', '='], ['<', '=', '~'], ['~'], ['='],
      ['>', '='], ['>', '=', '~'], ['>'], ['>', '<'], ([] : List Char), ['?']] := by
  unfold versionOpString
  split_ifs <;> decide

/-- C4 amended: rendering the comparator of any match bitmask never fails
and always yields one of the ten fixed comparator strings or the `?`
fallback for unlisted bit combinations; a set conflict bit always prefixes
the rendered dependency with `!`. -/
theorem versionOpString_spec (op : Nat) :
    versionOpString op ∈ [['<'], ['<', '='], ['<', '=', '~'], ['~'], ['='],
      ['>', '='], ['>', '=', '~'], ['>'], ['>', '<'], ([] : List Char), ['?']] ∧
    (∀ nm v m, hasConflictBit m = true →
      ∃ rest, dependencyToString ⟨some nm, v, some m⟩ = '!' :: rest) := by
  constructor
  · exact versionOpString_mem op
  · intro nm v m hc
    have hm : m ≠ 0 := by
      intro h
      rw [h] at hc
      simp [hasConflictBit] at hc
    unfold dependencyToString
    simp only [Option.getD_some, hm, if_false]
    cases v with
    | none =>
      rw [hc]
      exact ⟨nm, rfl⟩
    | some ver =>
      rw [hc]
      exact ⟨nm ++ versionOpString m ++ ver, rfl⟩

theorem versionOpString_spec_witness :
    ∃ rest, dependencyToString ⟨some ['p'], none, some 16⟩ = '!' :: rest :=
  (versionOpString_spec 16).2 ['p'] none 16 (by decide)

/-- Top type nibble of a 32-bit tag (`(t & 0xf0000000) >>> 0` selects it):
1 = inline int, 2 = int32, 3 = int64, 8/9/10 = blob-8/16/32, 13 = array,
14 = object. -/
def tagType (tag : Nat) : Nat := tag % 4294967296 / 268435456

/-- Low 28 bits of a tag (`tag & ADB_VALUE_MASK`): inline value or offset. -/
def tagValue (tag : Nat) : Nat := tag % 268435456

/-- `ADBReader._slice` (adbdump.js lines 169-175): dereference `size` bytes
at the tag's offset plus `off`; reading past the end of the payload slice
is the only failure. -/
def adbSlice (p : List Nat) (tag off size : Nat) : Except String (List Nat) :=
  if tagValue tag + off + size > p.length then Except.error "Out-of-bounds deref"
  else Except.ok ((p.drop (tagValue tag + off)).take size)

/-- Little-endian integer value of a byte list. -/
def readLE (bytes : List Nat) : Nat :=
  bytes.foldr (fun b acc => acc * 256 + b) 0

/-- `ADBReader.readInt` (adbdump.js lines 176-183): inline ints are the
value field itself, int32/int64 dereference 4/8 little-endian bytes, and
every other tag type returns 0 without error. -/
def readInt (p : List Nat) (tag : Nat) : Except String Nat :=
  if tagType tag = 1 then Except.ok (tagValue tag)
  else if tagType tag = 2 then
    match adbSlice p tag 0 4 with
    | Except.error e => Except.error e
    | Except.ok bs => Except.ok (readLE bs)
  else if tagType tag = 3 then
    match adbSlice p tag 0 8 with
    | Except.error e => Except.error e
    | Except.ok bs => Except.ok (readLE bs)
  else Except.ok 0

/-- `ADBReader.readBlob` (adbdump.js lines 184-202): blob-8/16/32 read a
1/2/4-byte little-endian length prefix and then that many bytes; every
other tag type returns the empty byte sequence without error. -/
def readBlob (p : List Nat) (tag : Nat) : Except String (List Nat) :=
  if tagType tag = 8 then
    match adbSlice p tag 0 1 with
    | Except.error e => Except.error e
    | Except.ok lb => adbSlice p tag 1 (readLE lb)
  else if tagType tag = 9 then
    match adbSlice p tag 0 2 with
    | Except.error e => Except.error e
    | Except.ok lb => adbSlice p tag 2 (readLE lb)
  else if tagType tag = 10 then
    match adbSlice p tag 0 4 with
    | Except.error e => Except.error e
    | Except.ok lb => adbSlice p tag 4 (readLE lb)
  else Except.ok []

theorem adbSlice_error {p : List Nat} {tag off size : Nat} {e : String}
    (h : adbSlice p tag off size = Except.error e) : e = "Out-of-bounds deref" := by
  unfold adbSlice at h
  split at h
  · exact (Except.error.inj h).symm
  · exact absurd h (by simp)

/-- C10: for a tag whose type nibble is not an integer type, `readInt`
returns 0 without raising; for a tag whose type nibble is not a blob type,
`readBlob` returns the empty byte sequence without raising; the only error
either operation can produce is the out-of-bounds dereference. -/
theorem adbReader_type_mismatch (p : List Nat) (tag : Nat) :
    (tagType tag ≠ 1 → tagType tag ≠ 2 → tagType tag ≠ 3 →
      readInt p tag = Except.ok 0) ∧
    (tagType tag ≠ 8 → tagType tag ≠ 9 → tagType tag ≠ 10 →
      readBlob p tag = Except.ok []) ∧
    (∀ e, readInt p tag = Except.error e → e = "Out-of-bounds deref") ∧
    (∀ e, readBlob p tag = Except.error e → e = "Out-of-bounds deref") := by
  refine ⟨?_, ?_, ?_, ?_⟩
  · intro h1 h2 h3
    unfold readInt
    simp [h1, h2, h3]
  · intro h8 h9 h10
    unfold readBlob
    simp [h8, h9, h10]
  · intro e he
    unfold readInt at he
    split_ifs at he
    · cases hs : adbSlice p tag 0 4 with
      | error e2 =>
        rw [hs] at he
        injection he with h2
        exact h2 ▸ adbSlice_error hs
      | ok val =>
        rw [hs] at he
        exact absurd he (by simp)
    · cases hs : adbSlice p tag 0 8 with
      | error e2 =>
        rw [hs] at he
        injection he with h2
        exact h2 ▸ adbSlice_error hs
      | ok val =>
        rw [hs] at he
        exact absurd he (by simp)
  · intro e he
    unfold readBlob at he
    split_ifs at he
    · cases hs : adbSlice p tag 0 1 with
      | error e2 =>
        rw [hs] at he
        injection he with h2
        exact h2 ▸ adbSlice_error hs
      | ok lb =>
        rw [hs] at he
        exact adbSlice_error he
    · cases hs : adbSlice p tag 0 2 with
      | error e2 =>
        rw [hs] at he
        injection he with h2
        exact h2 ▸ adbSlice_error hs
      | ok lb =>
        rw [hs] at he
        exact adbSlice_error he
    · cases hs : adbSlice p tag 0 4 with
      | error e2 =>
        rw [hs] at he
        injection he with h2
        exact h2 ▸ adbSlice_error hs
      | ok lb =>
        rw [hs] at he
        exact adbSlice_error he

theorem adbReader_type_mismatch_witness :
    readInt [] 5 = Except.ok 0 ∧ readBlob [] 5 = Except.ok [] :=
  ⟨(adbReader_type_mismatch [] 5).1 (by decide) (by decide) (by decide),
   (adbReader_type_mismatch [] 5).2.1 (by decide) (by decide) (by decide)⟩

/-- `inflate` from `adbdump.js` (lines 98-111), parameterized by the two
decompressors the browser supplies. Per the WHATWG Compression Streams
specification, `DecompressionStream` format `deflate` is the ZLIB-WRAPPED
deflate variant (RFC 1950) and `deflate-raw` is raw deflate (RFC 1951).
The source tries format `deflate` (zlib-wrapped) first and falls back to
`deflate-raw` (raw) only if the first attempt throws. A decompressor is
embedded as a partial function (`none` = that attempt throws). -/
def inflateJs (zlibInf rawInf : List Nat → Option (List Nat)) (u8 : List Nat) :
    Option (List Nat) :=
  match zlibInf u8 with
  | some out => some out
  | none => rawInf u8

/-- Modelled from the spec for the refinement comparison: the order the
spec claims for the `ADBd` envelope — attempt raw deflate first, fall back
to the zlib-wrapped variant only if raw deflate fails. -/
def inflateSpecOrder (zlibInf rawInf : List Nat → Option (List Nat)) (u8 : List Nat) :
    Option (List Nat) :=
  match rawInf u8 with
  | some out => some out
  | none => zlibInf u8

/-- `maybeDecompress` from `adbdump.js` (lines 75-96) over byte lists:
`ADBd` (bytes 65,68,66,100) inflates the remainder; `ADBc` (…,99) reads an
algorithm byte (0 = store, 1 = deflate, 2 = unsupported zstd); any other
head returns the buffer unchanged. -/
def maybeDecompress (zlibInf rawInf : List Nat → Option (List Nat)) (u8 : List Nat) :
    Except String (List Nat) :=
  if u8.length < 4 then Except.error "File too small"
  else if u8.take 4 = [65, 68, 66, 100] then
    match inflateJs zlibInf rawInf (u8.drop 4) with
    | some out => Except.ok out
    | none => Except.error "inflate failed"
  else if u8.take 4 = [65, 68, 66, 99] then
    if u8.length < 6 then Except.error "Truncated ADBc header"
    else if u8.getD 4 0 = 0 then Except.ok (u8.drop 6)
    else if u8.getD 4 0 = 1 then
      match inflateJs zlibInf rawInf (u8.drop 6) with
      | some out => Except.ok out
      | none => Except.error "inflate failed"
    else if u8.getD 4 0 = 2 then Except.error "ADB zstd not supported in browser"
    else Except.error "Unknown ADBc compression algorithm"
  else Except.ok u8

/-- C8 counterexample: on an `ADBd` buffer whose payload both decompressors
accept with different outputs, the code returns the zlib-wrapped result
`[1]`, not the raw-deflate result `[2]`: raw deflate is not attempted
first, contradicting the claimed order. -/
theorem maybeDecompress_order_cex :
    maybeDecompress (fun _ => some [1]) (fun _ => some [2]) [65, 68, 66, 100, 9] =
      Except.ok [1] ∧
    (fun (_ : List Nat) => some [2]) [9] = some ([2] : List Nat) ∧
    inflateSpecOrder (fun _ => some [1]) (fun _ => some [2]) [9] = some [2] ∧
    ([1] : List Nat) ≠ [2] := by
  refine ⟨rfl, rfl, rfl, by decide⟩

/-- C8 amended: for every buffer whose first 4 bytes are `ADBd`, the
envelope decompressor inflates the remaining bytes by attempting the
zlib-wrapped deflate variant first and falls back to raw deflate only if
the zlib-wrapped attempt fails; if both fail, the envelope fails. -/
theorem maybeDecompress_adbd (zlibInf rawInf : List Nat → Option (List Nat))
    (u8 : List Nat) (h : u8.take 4 = [65, 68, 66, 100]) :
    (∀ out, zlibInf (u8.drop 4) = some out →
      maybeDecompress zlibInf rawInf u8 = Except.ok out) ∧
    (zlibInf (u8.drop 4) = none → ∀ out, rawInf (u8.drop 4) = some out →
      maybeDecompress zlibInf rawInf u8 = Except.ok out) ∧
    (zlibInf (u8.drop 4) = none → rawInf (u8.drop 4) = none →
      maybeDecompress zlibInf rawInf u8 = Except.error "inflate failed") := by
  have hlen : ¬ u8.length < 4 := by
    have h4 : (u8.take 4).length = 4 := by rw [h]; rfl
    rw [List.length_take] at h4
    omega
  refine ⟨?_, ?_, ?_⟩
  · intro out hz
    unfold maybeDecompress inflateJs
    rw [if_neg hlen, if_pos h, hz]
  · intro hz out hr
    unfold maybeDecompress inflateJs
    rw [if_neg hlen, if_pos h, hz, hr]
  · intro hz hr
    unfold maybeDecompress inflateJs
    rw [if_neg hlen, if_pos h, hz, hr]

theorem maybeDecompress_adbd_witness :
    maybeDecompress (fun _ => none) (fun _ => some [7]) [65, 68, 66, 100] =
      Except.ok [7] :=
  (maybeDecompress_adbd (fun _ => none) (fun _ => some [7]) [65, 68, 66, 100]
    (by decide)).2.1 rfl [7] rfl

/-- JavaScript whitespace (the ASCII part relevant to these parsers), used
by `String.prototype.trim` and the regex class `\s`. -/
def jsWs (c : Char) : Bool := c = ' ' ∨ c = '\t' ∨ c = '\n' ∨ c = '\r'

/-- JavaScript `trim`: strip whitespace from both ends. -/
def trimChars (l : List Char) : List Char :=
  ((l.dropWhile jsWs).reverse.dropWhile jsWs).reverse

/-- The regex `/^!/` replacement: strip one leading `!`. -/
def stripBang (l : List Char) : List Char :=
  match l with
  | [] => []
  | c :: rest => if c = '!' then rest else c :: rest

/-- The character class `[<>=~\s]` that ends the name prefix in
`cleanAdbDependency`'s regex `/^([^<>=~\s]+)/`. -/
def isDepStop (c : Char) : Bool := c = '<' ∨ c = '>' ∨ c = '=' ∨ c = '~' ∨ jsWs c

/-- `cleanAdbDependency` from the package-manager service (lines 201-204):
strip a leading `!`, take the longest nonempty prefix free of
`<>=~` and whitespace (trimmed); if the regex does not match, fall back to
the trimmed input. -/
def cleanAdbDependency (dep : List Char) : List Char :=
  let pref := (stripBang dep).takeWhile (fun c => !(isDepStop c))
  if pref = [] then trimChars dep else trimChars pref

/-- The dependency-name extraction of `mapAdbPackages` (lines 172-175):
render each decoded dependency object, clean it, and keep the nonempty
results other than `libc`. -/
def mapAdbDepends (deps : List AdbDep) : List (List Char) :=
  (deps.map (fun d => cleanAdbDependency (dependencyToString d))).filter
    (fun d => d ≠ [] ∧ d ≠ ['l', 'i', 'b', 'c'])

/-- C5 counterexample: a dependency on `foo`, version `1.0`, match bitmask
7 (EQUAL+LESS+GREATER = any version) renders as `foo1.0` — the empty
comparator string concatenates name and version — and the cleanup cannot
separate them again: the stored dependency name is `foo1.0`, not the bare
name `foo`. -/
theorem cleanAdbDependency_any_version_cex :
    mapAdbDepends [⟨some ['f', 'o', 'o'], some ['1', '.', '0'], some 7⟩] =
      [['f', 'o', 'o', '1', '.', '0']] ∧
    (['f', 'o', 'o', '1', '.', '0'] : List Char) ≠ ['f', 'o', 'o'] := by
  refine ⟨rfl, by decide⟩

theorem takeWhile_append_all {p : Char → Bool} {l1 l2 : List Char}
    (h : ∀ c ∈ l1, p c = true) :
    (l1 ++ l2).takeWhile p = l1 ++ l2.takeWhile p := by
  induction l1 with
  | nil => simp
  | cons c cs ih =>
    simp only [List.cons_append, List.takeWhile_cons]
    rw [h c (by simp)]
    simp only [if_true]
    rw [ih (fun x hx => h x (by simp [hx]))]

theorem takeWhile_eq_self_all {p : Char → Bool} {l : List Char}
    (h : ∀ c ∈ l, p c = true) : l.takeWhile p = l := by
  have h2 : (l ++ []).takeWhile p = l ++ [].takeWhile p := takeWhile_append_all h
  simpa using h2

theorem dropWhile_eq_self_all {p : Char → Bool} {l : List Char}
    (h : ∀ c ∈ l, p c = false) : l.dropWhile p = l := by
  cases l with
  | nil => rfl
  | cons c cs =>
    rw [List.dropWhile_cons]
    rw [h c (by simp)]
    simp

theorem trimChars_eq_self {l : List Char} (h : ∀ c ∈ l, jsWs c = false) :
    trimChars l = l := by
  unfold trimChars
  rw [dropWhile_eq_self_all h,
    dropWhile_eq_self_all (fun c hc => h c (List.mem_reverse.mp hc)),
    List.reverse_reverse]

theorem isDepStop_false_ws {c : Char} (h : isDepStop c = false) : jsWs c = false := by
  by_contra hw
  simp only [Bool.not_eq_false] at hw
  have : isDepStop c = true := by
    simp [isDepStop, hw]
  rw [this] at h
  cases h


theorem stripBang_bang (l : List Char) : stripBang ('!' :: l) = l := by
  show (if '!' = '!' then l else '!' :: l) = l
  simp

theorem stripBang_other {c : Char} (l : List Char) (h : c ≠ '!') :
    stripBang (c :: l) = c :: l := by
  show (if c = '!' then l else c :: l) = c :: l
  rw [if_neg h]

theorem cleanAdbDependency_eq (dep : List Char) :
    cleanAdbDependency dep =
      (if (stripBang dep).takeWhile (fun c => !(isDepStop c)) = []
       then trimChars dep
       else trimChars ((stripBang dep).takeWhile (fun c => !(isDepStop c)))) := rfl

/-- C5 amended: the dependency name stored on the canonical record equals
the bare package name whenever (a) the name is nonempty, free of the
comparator characters and whitespace, and does not itself start with `!`,
and (b) any present version is rendered with one of the nine nonempty
comparator strings — for the any-version mask (empty comparator) and the
`?` fallback the version concatenates into the stored name and is not
removed; a bare name `libc` is filtered out rather than stored. -/
theorem cleanAdbDependency_bare (nm : List Char) (v : Option (List Char)) (m : Option Nat)
    (h1 : nm ≠ [])
    (h2 : ∀ c ∈ nm, isDepStop c = false)
    (h3 : nm.head? ≠ some '!')
    (h4 : ∀ x, v = some x →
      versionOpString (if m.getD 0 = 0 then 1 else m.getD 0) ≠ [] ∧
      versionOpString (if m.getD 0 = 0 then 1 else m.getD 0) ≠ ['?']) :
    cleanAdbDependency (dependencyToString ⟨some nm, v, m⟩) = nm ∧
    (nm ≠ ['l', 'i', 'b', 'c'] → mapAdbDepends [⟨some nm, v, m⟩] = [nm]) := by
  obtain ⟨c0, rest0, rfl⟩ := List.exists_cons_of_ne_nil h1
  have hc0 : c0 ≠ '!' := by
    intro heq
    exact h3 (by simp [heq])
  have hnm_take : (c0 :: rest0).takeWhile (fun c => !(isDepStop c)) = c0 :: rest0 :=
    takeWhile_eq_self_all (fun c hc => by rw [h2 c hc]; rfl)
  have hnm_ws : ∀ c ∈ c0 :: rest0, jsWs c = false :=
    fun c hc => isDepStop_false_ws (h2 c hc)
  have hmain : cleanAdbDependency (dependencyToString ⟨some (c0 :: rest0), v, m⟩) =
      c0 :: rest0 := by
    cases v with
    | none =>
      rw [show dependencyToString ⟨some (c0 :: rest0), none, m⟩ =
        (if hasConflictBit (if m.getD 0 = 0 then 1 else m.getD 0)
         then '!' :: (c0 :: rest0) else c0 :: rest0) from rfl]
      by_cases hc : hasConflictBit (if m.getD 0 = 0 then 1 else m.getD 0)
      · rw [if_pos hc, cleanAdbDependency_eq, stripBang_bang, hnm_take,
          if_neg (by simp)]
        exact trimChars_eq_self hnm_ws
      · rw [if_neg hc, cleanAdbDependency_eq, stripBang_other _ hc0, hnm_take,
          if_neg (by simp)]
        exact trimChars_eq_self hnm_ws
    | some ver =>
      have hop : ∃ s tail, versionOpString (if m.getD 0 = 0 then 1 else m.getD 0) =
          s :: tail ∧ isDepStop s = true := by
        have hmem := versionOpString_mem (if m.getD 0 = 0 then 1 else m.getD 0)
        obtain ⟨hne, hnq⟩ := h4 ver rfl
        simp only [List.mem_cons, List.not_mem_nil, or_false] at hmem
        rcases hmem with h|h|h|h|h|h|h|h|h|h|h
        · exact ⟨'<', [], h, by decide⟩
        · exact ⟨'<', ['='], h, by decide⟩
        · exact ⟨'<', ['=', '~'], h, by decide⟩
        · exact ⟨'~', [], h, by decide⟩
        · exact ⟨'=', [], h, by decide⟩
        · exact ⟨'>', ['='], h, by decide⟩
        · exact ⟨'>', ['=', '~'], h, by decide⟩
        · exact ⟨'>', [], h, by decide⟩
        · exact ⟨'>', ['<'], h, by decide⟩
        · exact absurd h hne
        · exact absurd h hnq
      obtain ⟨s, tail, hso, hss⟩ := hop
      rw [show dependencyToString ⟨some (c0 :: rest0), some ver, m⟩ =
        (if hasConflictBit (if m.getD 0 = 0 then 1 else m.getD 0) then ['!'] else []) ++
          (c0 :: rest0) ++
          versionOpString (if m.getD 0 = 0 then 1 else m.getD 0) ++ ver from rfl]
      rw [hso]
      have hv0 : ((s :: tail) ++ ver).takeWhile (fun c => !(isDepStop c)) = [] := by
        rw [List.cons_append, List.takeWhile_cons, hss]
        simp
      by_cases hc : hasConflictBit (if m.getD 0 = 0 then 1 else m.getD 0)
      · rw [if_pos hc, cleanAdbDependency_eq]
        rw [show (['!'] ++ (c0 :: rest0) ++ (s :: tail) ++ ver : List Char) =
          '!' :: ((c0 :: rest0) ++ ((s :: tail) ++ ver)) by simp]
        rw [stripBang_bang,
          takeWhile_append_all (fun c hc2 => by rw [h2 c hc2]; rfl), hv0,
          List.append_nil, if_neg (by simp)]
        exact trimChars_eq_self hnm_ws
      · rw [if_neg hc, cleanAdbDependency_eq]
        rw [show (([] : List Char) ++ (c0 :: rest0) ++ (s :: tail) ++ ver : List Char) =
          c0 :: (rest0 ++ ((s :: tail) ++ ver)) by simp]
        rw [stripBang_other _ hc0]
        rw [show (c0 :: (rest0 ++ ((s :: tail) ++ ver)) : List Char) =
          (c0 :: rest0) ++ ((s :: tail) ++ ver) by simp]
        rw [takeWhile_append_all (fun c hc2 => by rw [h2 c hc2]; rfl), hv0,
          List.append_nil, if_neg (by simp)]
        exact trimChars_eq_self hnm_ws
  refine ⟨hmain, fun hlibc => ?_⟩
  unfold mapAdbDepends
  rw [List.map_singleton, hmain, List.filter_singleton]
  simp [hlibc]

theorem cleanAdbDependency_bare_witness :
    cleanAdbDependency (dependencyToString
      ⟨some ['f', 'o', 'o'], some ['1', '.', '0'], some 3⟩) = ['f', 'o', 'o'] ∧
    mapAdbDepends [⟨some ['f', 'o', 'o'], some ['1', '.', '0'], some 3⟩] =
      [['f', 'o', 'o']] := by
  have h := cleanAdbDependency_bare ['f', 'o', 'o'] (some ['1', '.', '0']) (some 3)
    (by decide) (by decide) (by decide)
    (fun x hx => ⟨by decide, by decide⟩)
  exact ⟨h.1, h.2 (by decide)⟩

/-- JavaScript `split(',')` on a character list. -/
def splitCommaAux : List Char → List Char → List (List Char)
  | [], cur => [cur.reverse]
  | c :: rest, cur =>
    if c = ',' then cur.reverse :: splitCommaAux rest []
    else splitCommaAux rest (c :: cur)

def splitComma (l : List Char) : List (List Char) := splitCommaAux l []

/-- The regex `/^([^(]+)/` step of `parseDependencies`: the prefix before
any parenthesized version constraint, trimmed; if the regex does not match
(entry starts with `(`), the entry is returned unchanged. -/
def stripVersionConstraint (dep : List Char) : List Char :=
  if dep.takeWhile (fun c => c ≠ '(') = [] then dep
  else trimChars (dep.takeWhile (fun c => c ≠ '('))

/-- `parseDependencies` from the package-manager service (lines 209-222):
split on commas, trim, drop empty entries and the literal `libc`, strip
parenthesized version constraints, drop entries that became empty. -/
def parseDependencies (dependsStr : List Char) : List (List Char) :=
  if dependsStr = [] then []
  else
    ((((splitComma dependsStr).map trimChars).filter
        (fun d => d ≠ [] ∧ d ≠ ['l', 'i', 'b', 'c'])).map
      stripVersionConstraint).filter (fun d => d ≠ [])

/-- C6 counterexample: the entry `libc (>= 1.0)` survives the `libc` filter
(which runs before the version constraint is stripped, comparing the whole
trimmed entry) and contributes the name `libc` to the result. -/
theorem parseDependencies_libc_cex :
    parseDependencies
        ['l', 'i', 'b', 'c', ' ', '(', '>', '=', ' ', '1', '.', '0', ')'] =
      [['l', 'i', 'b', 'c']] ∧
    ['l', 'i', 'b', 'c'] ∈ parseDependencies
        ['l', 'i', 'b', 'c', ' ', '(', '>', '=', ' ', '1', '.', '0', ')'] := by
  refine ⟨rfl, by decide⟩

/-- C6 amended: every resulting dependency name is the trimmed prefix of a
comma-separated entry before any parenthesized version constraint, taken
from entries that are nonempty and not literally `libc` after trimming; in
particular `libc` can appear in the result only through an entry that
carries a version constraint (the literal-`libc` filter runs before
constraint stripping). -/
theorem parseDependencies_spec (s : List Char) :
    (∀ d ∈ parseDependencies s, d ≠ [] ∧
      ∃ e ∈ splitComma s, trimChars e ≠ [] ∧ trimChars e ≠ ['l', 'i', 'b', 'c'] ∧
        d = stripVersionConstraint (trimChars e)) ∧
    (['l', 'i', 'b', 'c'] ∈ parseDependencies s →
      ∃ e ∈ splitComma s, trimChars e ≠ ['l', 'i', 'b', 'c'] ∧
        stripVersionConstraint (trimChars e) = ['l', 'i', 'b', 'c']) := by
  have hpart1 : ∀ d ∈ parseDependencies s, d ≠ [] ∧
      ∃ e ∈ splitComma s, trimChars e ≠ [] ∧ trimChars e ≠ ['l', 'i', 'b', 'c'] ∧
        d = stripVersionConstraint (trimChars e) := by
    intro d hd
    unfold parseDependencies at hd
    split at hd
    · exact absurd hd (by simp)
    · rw [List.mem_filter] at hd
      obtain ⟨hd1, hd2⟩ := hd
      rw [List.mem_map] at hd1
      obtain ⟨t, ht, rfl⟩ := hd1
      rw [List.mem_filter] at ht
      obtain ⟨ht1, htP⟩ := ht
      rw [List.mem_map] at ht1
      obtain ⟨e, he, rfl⟩ := ht1
      have htP2 := of_decide_eq_true htP
      have hd22 := of_decide_eq_true hd2
      exact ⟨hd22, e, he, htP2.1, htP2.2, rfl⟩
  refine ⟨hpart1, fun hmem => ?_⟩
  obtain ⟨-, e, he, -, hne, heq⟩ := hpart1 _ hmem
  exact ⟨e, he, hne, heq.symm⟩

theorem parseDependencies_spec_witness :
    ∃ e ∈ splitComma
        ['l', 'i', 'b', 'c', ' ', '(', '>', '=', ' ', '1', '.', '0', ')'],
      trimChars e ≠ ['l', 'i', 'b', 'c'] ∧
      stripVersionConstraint (trimChars e) = ['l', 'i', 'b', 'c'] :=
  (parseDependencies_spec
    ['l', 'i', 'b', 'c', ' ', '(', '>', '=', ' ', '1', '.', '0', ')']).2 (by decide)

/-- JavaScript `split('\n\n')`: blocks are separated by a blank line. -/
def splitBlocksAux : List Char → List Char → List (List Char)
  | [], cur => [cur.reverse]
  | '\n' :: '\n' :: rest, cur => cur.reverse :: splitBlocksAux rest []
  | c :: rest, cur => splitBlocksAux rest (c :: cur)

def splitBlocks (l : List Char) : List (List Char) := splitBlocksAux l []

/-- JavaScript `split('\n')`: one entry per line. -/
def splitLinesAux : List Char → List Char → List (List Char)
  | [], cur => [cur.reverse]
  | c :: rest, cur =>
    if c = '\n' then cur.reverse :: splitLinesAux rest []
    else splitLinesAux rest (c :: cur)

def splitLines (l : List Char) : List (List Char) := splitLinesAux l []

/-- The `line.indexOf(':')` key/value split of `parsePackageBlock` (lines
97-102): `none` when the line has no colon (the line is skipped);
otherwise the trimmed text before the first colon and the trimmed text
after it. -/
def lineKV (line : List Char) : Option (List Char × List Char) :=
  if (line.takeWhile (fun c => c ≠ ':')).length = line.length then none
  else some (trimChars (line.takeWhile (fun c => c ≠ ':')),
    trimChars ((line.drop (line.takeWhile (fun c => c ≠ ':')).length).drop 1))

/-- JavaScript `parseInt(value, 10) || 0` on an already-trimmed value:
optional sign, longest decimal-digit prefix, and 0 if there is none. -/
def parseIntJS (l : List Char) : Int :=
  match l with
  | '-' :: rest =>
    if rest.takeWhile Char.isDigit = [] then 0
    else - Int.ofNat ((rest.takeWhile Char.isDigit).foldl
      (fun acc c => acc * 10 + (c.toNat - 48)) 0)
  | '+' :: rest =>
    if rest.takeWhile Char.isDigit = [] then 0
    else Int.ofNat ((rest.takeWhile Char.isDigit).foldl
      (fun acc c => acc * 10 + (c.toNat - 48)) 0)
  | _ =>
    if l.takeWhile Char.isDigit = [] then 0
    else Int.ofNat ((l.takeWhile Char.isDigit).foldl
      (fun acc c => acc * 10 + (c.toNat - 48)) 0)

/-- One parsed text-format package record (the 13 recognized keys of
`parsePackageBlock`; `Section` is stored in `sect` since `section` is a
Lean keyword). An absent string field is the empty list, matching the
JavaScript falsiness check used for validation. -/
structure TxtPkg where
  name : List Char
  version : List Char
  depends : List (List Char)
  license : List Char
  sect : List Char
  url : List Char
  cpeId : List Char
  architecture : List Char
  installedSize : Int
  filename : List Char
  size : Int
  sha256sum : List Char
  description : List Char
deriving DecidableEq

def emptyTxtPkg : TxtPkg := ⟨[], [], [], [], [], [], [], [], 0, [], 0, [], []⟩

/-- The `switch (key)` of `parsePackageBlock` (lines 104-145): recognized
keys assign the corresponding field (last occurrence wins); unrecognized
keys and colon-free lines leave the record unchanged. -/
def applyLine (pkg : TxtPkg) (line : List Char) : TxtPkg :=
  match lineKV line with
  | none => pkg
  | some kv =>
    if kv.1 = "Package".toList then { pkg with name := kv.2 }
    else if kv.1 = "Version".toList then { pkg with version := kv.2 }
    else if kv.1 = "Depends".toList then { pkg with depends := parseDependencies kv.2 }
    else if kv.1 = "License".toList then { pkg with license := kv.2 }
    else if kv.1 = "Section".toList then { pkg with sect := kv.2 }
    else if kv.1 = "URL".toList then { pkg with url := kv.2 }
    else if kv.1 = "CPE-ID".toList then { pkg with cpeId := kv.2 }
    else if kv.1 = "Architecture".toList then { pkg with architecture := kv.2 }
    else if kv.1 = "Installed-Size".toList then { pkg with installedSize := parseIntJS kv.2 }
    else if kv.1 = "Filename".toList then { pkg with filename := kv.2 }
    else if kv.1 = "Size".toList then { pkg with size := parseIntJS kv.2 }
    else if kv.1 = "SHA256sum".toList then { pkg with sha256sum := kv.2 }
    else if kv.1 = "Description".toList then { pkg with description := kv.2 }
    else pkg

/-- The field-collection loop of `parsePackageBlock` (lines 93-146). -/
def parseBlockFields (block : List Char) : TxtPkg :=
  (splitLines block).foldl applyLine emptyTxtPkg

/-- The mandatory-field validation of `parsePackageBlock` (line 149): the
block produces a record only if `Package`, `Version`, `Architecture` and
`Filename` all received nonempty values (JavaScript truthiness). -/
def hasMandatoryFields (block : List Char) : Bool :=
  (parseBlockFields block).name ≠ [] ∧ (parseBlockFields block).version ≠ [] ∧
    (parseBlockFields block).architecture ≠ [] ∧ (parseBlockFields block).filename ≠ []

/-- `parsePackageBlock` (lines 93-154): `none` (no record, no error) when a
mandatory field is missing. -/
def parsePackageBlock (block : List Char) : Option TxtPkg :=
  if hasMandatoryFields block then some (parseBlockFields block) else none

/-- `parsePackagesFile` (lines 72-88): split on blank lines, drop
whitespace-only blocks, parse each block, keep the records produced. -/
def parsePackagesFile (content : List Char) : List TxtPkg :=
  ((splitBlocks content).filter (fun b => trimChars b ≠ [])).filterMap parsePackageBlock

theorem length_filterMap_eq_countP {α β : Type} (f : α → Option β) (l : List α) :
    (l.filterMap f).length = l.countP (fun a => (f a).isSome) := by
  induction l with
  | nil => rfl
  | cons a l ih =>
    rw [List.filterMap_cons, List.countP_cons]
    cases hf : f a with
    | none => simp [hf, ih]
    | some b => simp [hf, ih]

theorem countP_filter_of_imp {α : Type} (p q : α → Bool) (l : List α)
    (h : ∀ a ∈ l, p a = true → q a = true) :
    (l.filter q).countP p = l.countP p := by
  induction l with
  | nil => rfl
  | cons a l ih =>
    have ih2 := ih (fun x hx hp => h x (by simp [hx]) hp)
    rw [List.filter_cons]
    by_cases hq : q a = true
    · rw [if_pos hq, List.countP_cons, List.countP_cons, ih2]
    · have hp : p a = false := by
        by_contra hc
        simp only [Bool.not_eq_false] at hc
        exact hq (h a (by simp) hc)
      rw [if_neg hq, List.countP_cons, ih2, hp]
      simp

theorem parsePackageBlock_isSome (b : List Char) :
    (parsePackageBlock b).isSome = hasMandatoryFields b := by
  unfold parsePackageBlock
  by_cases h : hasMandatoryFields b = true
  · rw [if_pos h, h]
    rfl
  · rw [Bool.not_eq_true] at h
    rw [if_neg (by rw [h]; exact Bool.false_ne_true), h]
    rfl

theorem trimChars_eq_nil_all_ws {l : List Char} (h : trimChars l = []) :
    ∀ c ∈ l, jsWs c = true := by
  unfold trimChars at h
  rw [List.reverse_eq_nil_iff, List.dropWhile_eq_nil_iff] at h
  intro c hc
  by_cases hw : jsWs c = true
  · exact hw
  · have hsplit : l.takeWhile jsWs ++ l.dropWhile jsWs = l :=
      List.takeWhile_append_dropWhile jsWs l
    rw [← hsplit] at hc
    rcases List.mem_append.mp hc with hc1 | hc2
    · exact List.mem_takeWhile_imp hc1
    · exact h c (List.mem_reverse.mpr hc2)

theorem mem_splitLinesAux (l : List Char) :
    ∀ cur line, line ∈ splitLinesAux l cur → ∀ c ∈ line, c ∈ l ∨ c ∈ cur := by
  induction l with
  | nil =>
    intro cur line h c hc
    unfold splitLinesAux at h
    simp only [List.mem_singleton] at h
    right
    rw [h] at hc
    exact List.mem_reverse.mp hc
  | cons a rest ih =>
    intro cur line h c hc
    unfold splitLinesAux at h
    by_cases ha : a = '\n'
    · rw [if_pos ha] at h
      rcases List.mem_cons.mp h with h1 | h2
      · right
        rw [h1] at hc
        exact List.mem_reverse.mp hc
      · rcases ih [] line h2 c hc with h3 | h4
        · exact Or.inl (by simp [h3])
        · exact absurd h4 (List.not_mem_nil c)
    · rw [if_neg ha] at h
      rcases ih (a :: cur) line h c hc with h3 | h4
      · exact Or.inl (by simp [h3])
      · rcases List.mem_cons.mp h4 with h5 | h6
        · exact Or.inl (by simp [h5])
        · exact Or.inr h6

theorem lineKV_no_colon {line : List Char} (h : ':' ∉ line) : lineKV line = none := by
  unfold lineKV
  rw [if_pos]
  rw [takeWhile_eq_self_all (fun c hc => ?_)]
  simp only [decide_eq_true_eq]
  intro heq
  rw [heq] at hc
  exact h hc

theorem foldl_applyLine_no_colon (lines : List (List Char)) :
    ∀ pkg, (∀ l ∈ lines, lineKV l = none) → lines.foldl applyLine pkg = pkg := by
  induction lines with
  | nil => intro pkg _ ; rfl
  | cons a rest ih =>
    intro pkg h
    rw [List.foldl_cons]
    have ha : applyLine pkg a = pkg := by
      unfold applyLine
      rw [h a (by simp)]
    rw [ha]
    exact ih pkg (fun l hl => h l (by simp [hl]))

theorem parseBlockFields_all_ws {b : List Char} (h : ∀ c ∈ b, jsWs c = true) :
    parseBlockFields b = emptyTxtPkg := by
  unfold parseBlockFields
  apply foldl_applyLine_no_colon
  intro line hline
  apply lineKV_no_colon
  intro hc
  rcases mem_splitLinesAux b [] line hline ':' hc with h1 | h2
  · have := h ':' h1
    simp [jsWs] at this
  · exact absurd h2 (List.not_mem_nil _)

theorem hasMandatory_trim_ne {b : List Char} (h : hasMandatoryFields b = true) :
    trimChars b ≠ [] := by
  intro ht
  have hfields := parseBlockFields_all_ws (trimChars_eq_nil_all_ws ht)
  unfold hasMandatoryFields at h
  rw [hfields] at h
  have h2 := of_decide_eq_true h
  exact h2.1 rfl

/-- C7: a block in which any of `Package`, `Version`, `Architecture`,
`Filename` produced no (nonempty) value yields no record and no error —
the parser is total and simply skips it — parsing continues with the
following blocks, and the number of emitted records equals exactly the
number of blocks carrying all four fields; concretely, a two-block input
whose second block lacks `Filename` yields exactly one record. -/
theorem parsePackagesFile_spec (content : List Char) :
    (parsePackagesFile content).length =
      (splitBlocks content).countP hasMandatoryFields ∧
    (∀ b, parsePackageBlock b = none ↔ hasMandatoryFields b = false) ∧
    (parsePackagesFile ("Package: a\nVersion: 1\nArchitecture: x\nFilename: f" ++
      "\n\nPackage: b\nVersion: 1\nArchitecture: x").toList).length = 1 := by
  refine ⟨?_, ?_, by rfl⟩
  · unfold parsePackagesFile
    rw [length_filterMap_eq_countP]
    rw [show (fun b => (parsePackageBlock b).isSome) = hasMandatoryFields from
      funext parsePackageBlock_isSome]
    apply countP_filter_of_imp
    intro b _ hb
    exact decide_eq_true (hasMandatory_trim_ne hb)
  · intro b
    unfold parsePackageBlock
    by_cases h : hasMandatoryFields b = true
    · rw [if_pos h, h]
      constructor
      · intro hc
        exact absurd hc (by simp)
      · intro hc
        cases hc
    · rw [Bool.not_eq_true] at h
      rw [if_neg (by rw [h]; exact Bool.false_ne_true), h]
      simp

/-- The name and plain dependency-name list of a canonical package record:
the two fields `getDependencyTree` reads. -/
structure PkgRec where
  name : List Char
  depends : List (List Char)
deriving DecidableEq

/-- The `for (const dep of pkg.depends)` loop inside `addDependencies`
(part_009:293-298): each dependency not yet visited is pushed on the
result accumulator and descended into with the worker. -/
def goDeps (worker : List Char → List (List Char) → List (List Char) →
    Option (List (List Char) × List (List Char))) :
    List (List Char) → List (List Char) → List (List Char) →
    Option (List (List Char) × List (List Char))
  | [], vis, acc => some (vis, acc)
  | d :: ds, vis, acc =>
    if d ∈ vis then goDeps worker ds vis acc
    else
      match worker d vis (acc ++ [d]) with
      | none => none
      | some st => goDeps worker ds st.1 st.2

/-- The recursive `addDependencies` closure of `getDependencyTree`
(part_009:286-300), with an explicit fuel parameter to express the
recursion; `none` means the fuel ran out (shown below never to happen for
the fuel used by `getDependencyTree`). -/
def addDependencies (pkgs : List PkgRec) : Nat → List Char → List (List Char) →
    List (List Char) → Option (List (List Char) × List (List Char))
  | 0, _, _, _ => none
  | Nat.succ fuel, n, vis, acc =>
    if n ∈ vis then some (vis, acc)
    else
      match pkgs.find? (fun p => p.name = n) with
      | none => some (n :: vis, acc)
      | some p => goDeps (addDependencies pkgs fuel) p.depends (n :: vis) acc

/-- All dependency names of all records: every name the walk can descend
into lies in this list. -/
def depCarrier (pkgs : List PkgRec) : List (List Char) :=
  (pkgs.map (fun p => p.depends)).flatten

/-- Number of carrier names not yet visited — the decreasing measure of
the walk. -/
def unvisitedCount (pkgs : List PkgRec) (vis : List (List Char)) : Nat :=
  ((depCarrier pkgs).toFinset.filter (fun x => x ∉ vis)).card

/-- `getDependencyTree` (part_009:282-304), run with sufficient fuel. -/
def getDependencyTree (pkgs : List PkgRec) (packageName : List Char) :
    List (List Char) :=
  match addDependencies pkgs (unvisitedCount pkgs [] + 2) packageName [] [] with
  | some st => st.2
  | none => []

theorem unvisitedCount_mono {pkgs : List PkgRec} {vis vis2 : List (List Char)}
    (h : ∀ x ∈ vis, x ∈ vis2) :
    unvisitedCount pkgs vis2 ≤ unvisitedCount pkgs vis := by
  apply Finset.card_le_card
  intro x hx
  rw [Finset.mem_filter] at hx ⊢
  refine ⟨hx.1, fun hmem => hx.2 (h x hmem)⟩

theorem unvisitedCount_cons_le {pkgs : List PkgRec} {vis : List (List Char)}
    {n : List Char} :
    unvisitedCount pkgs (n :: vis) ≤ unvisitedCount pkgs vis :=
  unvisitedCount_mono (fun x hx => by simp [hx])

theorem unvisitedCount_lt {pkgs : List PkgRec} {vis : List (List Char)}
    {n : List Char} (hc : n ∈ depCarrier pkgs) (hv : n ∉ vis) :
    unvisitedCount pkgs (n :: vis) < unvisitedCount pkgs vis := by
  apply Finset.card_lt_card
  constructor
  · intro x hx
    rw [Finset.mem_filter] at hx ⊢
    refine ⟨hx.1, fun hmem => hx.2 (by simp [hmem])⟩
  · intro hsup
    have hn : n ∈ (depCarrier pkgs).toFinset.filter (fun x => x ∉ vis) := by
      rw [Finset.mem_filter]
      exact ⟨List.mem_toFinset.mpr hc, hv⟩
    have := hsup hn
    rw [Finset.mem_filter] at this
    exact this.2 (by simp)

theorem addDependencies_succ_eq (pkgs : List PkgRec) (f : Nat) (n : List Char)
    (vis acc : List (List Char)) :
    addDependencies pkgs (Nat.succ f) n vis acc =
      (if n ∈ vis then some (vis, acc)
       else
         match pkgs.find? (fun p => p.name = n) with
         | none => some (n :: vis, acc)
         | some p => goDeps (addDependencies pkgs f) p.depends (n :: vis) acc) := rfl

theorem goDeps_cons_eq (worker : List Char → List (List Char) → List (List Char) →
    Option (List (List Char) × List (List Char))) (d : List Char)
    (ds : List (List Char)) (vis acc : List (List Char)) :
    goDeps worker (d :: ds) vis acc =
      (if d ∈ vis then goDeps worker ds vis acc
       else
         match worker d vis (acc ++ [d]) with
         | none => none
         | some st => goDeps worker ds st.1 st.2) := rfl

theorem mem_depCarrier_of_find {pkgs : List PkgRec} {n : List Char} {p : PkgRec}
    (hf : pkgs.find? (fun p => p.name = n) = some p) :
    ∀ d ∈ p.depends, d ∈ depCarrier pkgs := by
  intro d hd
  unfold depCarrier
  rw [List.mem_flatten]
  exact ⟨p.depends, List.mem_map_of_mem _ (List.mem_of_find?_eq_some hf), hd⟩

theorem addDependencies_sufficient (pkgs : List PkgRec) : ∀ fuel : Nat,
    (∀ n vis acc,
      (n ∈ depCarrier pkgs → unvisitedCount pkgs vis < fuel) →
      (n ∉ depCarrier pkgs → unvisitedCount pkgs vis + 1 < fuel) →
      acc.Nodup → (∀ a ∈ acc, a = n ∨ a ∈ vis) →
      ∃ vis2 acc2, addDependencies pkgs fuel n vis acc = some (vis2, acc2) ∧
        n ∈ vis2 ∧ (∀ x ∈ vis, x ∈ vis2) ∧
        (∀ x ∈ vis2, x ∈ vis ∨ x = n ∨ x ∈ depCarrier pkgs) ∧
        acc2.Nodup ∧ (∀ a ∈ acc2, a ∈ vis2)) ∧
    (∀ ds vis acc, (∀ d ∈ ds, d ∈ depCarrier pkgs) →
      unvisitedCount pkgs vis < fuel →
      acc.Nodup → (∀ a ∈ acc, a ∈ vis) →
      ∃ vis2 acc2, goDeps (addDependencies pkgs fuel) ds vis acc = some (vis2, acc2) ∧
        (∀ x ∈ vis, x ∈ vis2) ∧
        (∀ x ∈ vis2, x ∈ vis ∨ x ∈ depCarrier pkgs) ∧
        acc2.Nodup ∧ (∀ a ∈ acc2, a ∈ vis2)) := by
  intro fuel
  induction fuel using Nat.strong_induction_on with
  | _ fuel ih =>
  have hP : ∀ n vis acc,
      (n ∈ depCarrier pkgs → unvisitedCount pkgs vis < fuel) →
      (n ∉ depCarrier pkgs → unvisitedCount pkgs vis + 1 < fuel) →
      acc.Nodup → (∀ a ∈ acc, a = n ∨ a ∈ vis) →
      ∃ vis2 acc2, addDependencies pkgs fuel n vis acc = some (vis2, acc2) ∧
        n ∈ vis2 ∧ (∀ x ∈ vis, x ∈ vis2) ∧
        (∀ x ∈ vis2, x ∈ vis ∨ x = n ∨ x ∈ depCarrier pkgs) ∧
        acc2.Nodup ∧ (∀ a ∈ acc2, a ∈ vis2) := by
    intro n vis acc h1 h2 hnd hacc
    cases fuel with
    | zero =>
      by_cases hc : n ∈ depCarrier pkgs
      · exact absurd (h1 hc) (by omega)
      · exact absurd (h2 hc) (by omega)
    | succ f =>
      by_cases hv : n ∈ vis
      · refine ⟨vis, acc, ?_, hv, fun x hx => hx, fun x hx => Or.inl hx, hnd, ?_⟩
        · rw [addDependencies_succ_eq, if_pos hv]
        · intro a ha
          rcases hacc a ha with rfl | h
          · exact hv
          · exact h
      · cases hf : pkgs.find? (fun p => p.name = n) with
        | none =>
          refine ⟨n :: vis, acc, ?_, by simp, fun x hx => by simp [hx], ?_, hnd, ?_⟩
          · rw [addDependencies_succ_eq, if_neg hv, hf]
          · intro x hx
            rcases List.mem_cons.mp hx with rfl | h
            · exact Or.inr (Or.inl rfl)
            · exact Or.inl h
          · intro a ha
            rcases hacc a ha with rfl | h
            · simp
            · simp [h]
        | some p =>
          have hQ := (ih f (Nat.lt_succ_self f)).2
          have hdc := mem_depCarrier_of_find hf
          have hcnt : unvisitedCount pkgs (n :: vis) < f := by
            by_cases hc : n ∈ depCarrier pkgs
            · have hlt := unvisitedCount_lt hc hv
              have := h1 hc
              omega
            · have hle : unvisitedCount pkgs (n :: vis) ≤ unvisitedCount pkgs vis :=
                unvisitedCount_cons_le
              have := h2 hc
              omega
          have hacc2 : ∀ a ∈ acc, a ∈ n :: vis := by
            intro a ha
            rcases hacc a ha with rfl | h
            · simp
            · simp [h]
          obtain ⟨vis2, acc2, hrun, hsub, hnew, hnd2, haccv⟩ :=
            hQ p.depends (n :: vis) acc hdc hcnt hnd hacc2
          refine ⟨vis2, acc2, ?_, hsub n (by simp),
            fun x hx => hsub x (by simp [hx]), ?_, hnd2, haccv⟩
          · rw [addDependencies_succ_eq, if_neg hv, hf]
            exact hrun
          · intro x hx
            rcases hnew x hx with h3 | h4
            · rcases List.mem_cons.mp h3 with rfl | h5
              · exact Or.inr (Or.inl rfl)
              · exact Or.inl h5
            · exact Or.inr (Or.inr h4)
  refine ⟨hP, ?_⟩
  intro ds
  induction ds with
  | nil =>
    intro vis acc _ _ hnd hacc
    exact ⟨vis, acc, rfl, fun x hx => hx, fun x hx => Or.inl hx, hnd, hacc⟩
  | cons d ds ihds =>
    intro vis acc hdc hcnt hnd hacc
    by_cases hdv : d ∈ vis
    · obtain ⟨vis2, acc2, hrun, hsub, hnew, hnd2, haccv⟩ :=
        ihds vis acc (fun x hx => hdc x (by simp [hx])) hcnt hnd hacc
      refine ⟨vis2, acc2, ?_, hsub, hnew, hnd2, haccv⟩
      rw [goDeps_cons_eq, if_pos hdv]
      exact hrun
    · have hd_carrier : d ∈ depCarrier pkgs := hdc d (by simp)
      have hnd2 : (acc ++ [d]).Nodup := by
        rw [List.nodup_append]
        refine ⟨hnd, List.nodup_singleton d, ?_⟩
        intro a ha hb
        rw [List.mem_singleton] at hb
        subst hb
        exact hdv (hacc a ha)
      have hacc2 : ∀ a ∈ acc ++ [d], a = d ∨ a ∈ vis := by
        intro a ha
        rcases List.mem_append.mp ha with h | h
        · exact Or.inr (hacc a h)
        · rw [List.mem_singleton] at h
          exact Or.inl h
      obtain ⟨vis2, acc2, hrun1, hdmem, hsub1, hnew1, hnd3, haccv2⟩ :=
        hP d vis (acc ++ [d]) (fun _ => hcnt)
          (fun hcon => absurd hd_carrier hcon) hnd2 hacc2
      have hcnt2 : unvisitedCount pkgs vis2 < fuel := by
        have hle : unvisitedCount pkgs vis2 ≤ unvisitedCount pkgs (d :: vis) := by
          apply unvisitedCount_mono
          intro x hx
          rcases List.mem_cons.mp hx with rfl | h
          · exact hdmem
          · exact hsub1 x h
        have hlt := unvisitedCount_lt hd_carrier hdv
        omega
      obtain ⟨vis3, acc3, hrun2, hsub2, hnew2, hnd4, haccv3⟩ :=
        ihds vis2 acc2 (fun x hx => hdc x (by simp [hx])) hcnt2 hnd3 haccv2
      refine ⟨vis3, acc3, ?_, ?_, ?_, hnd4, haccv3⟩
      · rw [goDeps_cons_eq, if_neg hdv, hrun1]
        exact hrun2
      · intro x hx
        exact hsub2 x (hsub1 x hx)
      · intro x hx
        rcases hnew2 x hx with h3 | h4
        · rcases hnew1 x h3 with h5 | h6 | h7
          · exact Or.inl h5
          · rw [h6]
            exact Or.inr hd_carrier
          · exact Or.inr h7
        · exact Or.inr h4

/-- C9: for every finite record set (cycles and self-references included)
and every starting name, the transitive dependency expansion terminates —
the fuel `getDependencyTree` supplies is always sufficient — its result
list contains no duplicated name, and on the two-record set where `x`
depends on `y` and `y` depends on `x` it returns exactly `[y]` from `x`
and `[x]` from `y`. -/
theorem getDependencyTree_spec :
    (∀ pkgs n, ∃ vis deps,
      addDependencies pkgs (unvisitedCount pkgs [] + 2) n [] [] = some (vis, deps) ∧
      getDependencyTree pkgs n = deps ∧ deps.Nodup) ∧
    getDependencyTree [⟨['x'], [['y']]⟩, ⟨['y'], [['x']]⟩] ['x'] = [['y']] ∧
    getDependencyTree [⟨['x'], [['y']]⟩, ⟨['y'], [['x']]⟩] ['y'] = [['x']] := by
  refine ⟨?_, by rfl, by rfl⟩
  intro pkgs n
  have hP := (addDependencies_sufficient pkgs (unvisitedCount pkgs [] + 2)).1
  obtain ⟨vis2, acc2, hrun, -, -, -, hnd, -⟩ :=
    hP n [] [] (fun _ => by omega) (fun _ => by omega) List.nodup_nil (by simp)
  refine ⟨vis2, acc2, hrun, ?_, hnd⟩
  unfold getDependencyTree
  rw [hrun]
